import Mathlib

/-
Verification of the manual RDF-to-LPGT transformation of
`create_lpgt_manual.py` (class LPGTManualCreator).

The Python source is shallowly embedded: rdflib terms become the
inductive `Term`, the triple graph becomes a `List Triple` (iteration
order over the rdflib graph is made explicit as the list order), Python
dicts become insertion-ordered association lists (`alGet`/`alSet`
mirror dict lookup and dict assignment), and the ArangoDB sink is an
oracle assigning `_key` strings to successive inserts (`Option.none`
models an insert call that raises).
-/

/-- An RDF term as classified by `isinstance` checks in the source:
a URI reference, a blank node, or a literal carrying an optional
datatype URI (`Option.none` models a literal with `datatype is None`). -/
inductive Term where
  | uriRef (u : String)
  | bnode (b : String)
  | literal (v : String) (dt : Option String)
deriving DecidableEq, Repr

/-- One RDF triple of the in-memory graph: subject, predicate, object.
rdflib predicates are URIRef terms; the source only ever applies
`str(...)` to them. -/
structure Triple where
  subj : Term
  pred : Term
  obj : Term
deriving DecidableEq, Repr

/-- `str(term)` on an rdflib term: URIRefs print their URI, blank nodes
their identifier, literals their lexical value. -/
def termStr : Term → String
  | Term.uriRef u => u
  | Term.bnode b => b
  | Term.literal v _ => v

/-- `isinstance(t, (URIRef, BNode))` from the source: true exactly for
URI references and blank nodes, never for literals. -/
def isResource : Term → Bool
  | Term.uriRef _ => true
  | Term.bnode _ => true
  | Term.literal _ _ => false

/-- Values stored in the flattened node documents: Python `None`,
`int`, `float` (represented exactly as a rational) or `str`. -/
inductive PyValue where
  | none
  | int (n : Int)
  | float (q : Rat)
  | str (s : String)
deriving DecidableEq, Repr

/-- A Python dict with string keys, modelled as an insertion-ordered
association list. -/
abbrev PyDict := List (String × PyValue)

/-- Dict/map lookup `l[k]` (first entry with the key; entries built via
`alSet` are key-unique, matching Python dict semantics). -/
def alGet {κ α : Type} [DecidableEq κ] : List (κ × α) → κ → Option α
  | [], _ => Option.none
  | (k', v) :: r, k => if k' = k then some v else alGet r k

/-- Dict/map assignment `l[k] = v`: overwrites in place if the key is
present, appends at the end otherwise — Python dict semantics. -/
def alSet {κ α : Type} [DecidableEq κ] : List (κ × α) → κ → α → List (κ × α)
  | [], k, v => [(k, v)]
  | (k', v') :: r, k, v => if k' = k then (k, v) :: r else (k', v') :: alSet r k v

/-- `set.add` on the `nodes` set (line 112/119/123), modelled as an
insertion-ordered duplicate-free list. -/
def setAdd (l : List Term) (x : Term) : List Term :=
  if x ∈ l then l else l ++ [x]

/-- The substring after the final occurrence of `c`, equal to `s` when
`c` does not occur: this is Python's `s.split(c)[-1]` used for labels
and property keys (lines 130, 139-141, 189-191). -/
def lastSplitSeg (c : Char) (s : String) : String :=
  String.mk ((s.toList.reverse.takeWhile (fun a => a != c)).reverse)

/-- `pat` occurs at the start of the character list. -/
def charsStartWith : List Char → List Char → Bool
  | [], _ => true
  | _ :: _, [] => false
  | a :: as, b :: bs => a == b && charsStartWith as bs

/-- `pat` occurs somewhere in the character list. -/
def subOccurs (pat : List Char) : List Char → Bool
  | [] => charsStartWith pat []
  | c :: rest => charsStartWith pat (c :: rest) || subOccurs pat rest

/-- Python's substring test `pat in s`. -/
def containsSub (s pat : String) : Bool :=
  subOccurs pat.toList s.toList

/-- The predicate local name (lines 137-143 and 186-193, identical
logic at both places): text after the last `#` if the URI contains
`#`, else after the last `/` if it contains `/`, else the full URI.
A single-character `in` test in Python is character membership. -/
def predLocalname (p : String) : String :=
  if p.toList.contains '#' then lastSplitSeg '#' p
  else if p.toList.contains '/' then lastSplitSeg '/' p
  else p

/-- Python `str.strip()` on ASCII/unicode whitespace, on char lists. -/
def trimChars (cs : List Char) : List Char :=
  ((cs.dropWhile (fun c => c.isWhitespace)).reverse.dropWhile
    (fun c => c.isWhitespace)).reverse

/-- Accumulate a decimal digit list into a natural number. -/
def digitsToNat (cs : List Char) : Nat :=
  cs.foldl (fun a c => a * 10 + (c.toNat - 48)) 0

/-- Parse a non-empty all-digit character list. -/
def parseAllDigits (cs : List Char) : Option Nat :=
  if cs ≠ [] ∧ cs.all (fun c => c.isDigit) then some (digitsToNat cs)
  else Option.none

/-- Python `int(s)` on a decimal string: optional surrounding
whitespace, optional sign, then decimal digits; `Option.none` models
the `ValueError` raised on any other input (digit-group underscores
are not modelled). -/
def pyIntParse (s : String) : Option Int :=
  match trimChars s.toList with
  | '+' :: rest => (parseAllDigits rest).map (fun n => (n : Int))
  | '-' :: rest => (parseAllDigits rest).map (fun n => -(n : Int))
  | cs => (parseAllDigits cs).map (fun n => (n : Int))

/-- Split a character list into its leading digits and the rest. -/
def spanDigits (cs : List Char) : List Char × List Char :=
  (cs.takeWhile (fun c => c.isDigit), cs.dropWhile (fun c => c.isDigit))

/-- Parse the mantissa of a Python float literal: `digits`,
`digits.digits`, `digits.` or `.digits`; returns the numerator, the
power-of-ten denominator, and the unconsumed rest. -/
def parseMantissa (cs : List Char) : Option ((Nat × Nat) × List Char) :=
  let ip := (spanDigits cs).1
  let r1 := (spanDigits cs).2
  match r1 with
  | '.' :: r2 =>
      let fp := (spanDigits r2).1
      let r3 := (spanDigits r2).2
      if ip = [] ∧ fp = [] then Option.none
      else some ((digitsToNat (ip ++ fp), 10 ^ fp.length), r3)
  | _ => if ip = [] then Option.none else some ((digitsToNat ip, 1), r1)

/-- Parse the optional exponent-and-end of a Python float literal. -/
def parseExpEnd (cs : List Char) : Option Int :=
  match cs with
  | [] => some 0
  | 'e' :: r =>
      (match r with
       | '+' :: q => (parseAllDigits q).map (fun n => (n : Int))
       | '-' :: q => (parseAllDigits q).map (fun n => -(n : Int))
       | q => (parseAllDigits q).map (fun n => (n : Int)))
  | 'E' :: r =>
      (match r with
       | '+' :: q => (parseAllDigits q).map (fun n => (n : Int))
       | '-' :: q => (parseAllDigits q).map (fun n => -(n : Int))
       | q => (parseAllDigits q).map (fun n => (n : Int)))
  | _ => Option.none

/-- Python `float(s)` on a decimal string, with the result represented
exactly as a rational; `Option.none` models the `ValueError` on
malformed input (`inf`/`nan` forms are not modelled). -/
def pyFloatParse (s : String) : Option Rat :=
  let cs := trimChars s.toList
  let sgn : Int × List Char :=
    match cs with
    | '+' :: r => (1, r)
    | '-' :: r => (-1, r)
    | _ => (1, cs)
  match parseMantissa sgn.2 with
  | some mr =>
      match parseExpEnd mr.2 with
      | some e =>
          if 0 ≤ e then
            some (mkRat (sgn.1 * ((mr.1.1 * 10 ^ e.toNat : Nat) : Int)) mr.1.2)
          else
            some (mkRat (sgn.1 * ((mr.1.1 : Nat) : Int))
              (mr.1.2 * 10 ^ (-e).toNat))
      | Option.none => Option.none
  | Option.none => Option.none

/-- The datatype-directed coercion of lines 145-160: with a non-empty
datatype URI (`if obj.datatype:` — a `None` or empty datatype is
falsy), a URI containing `integer` or `int` triggers an integer parse
falling back to the raw string, else one containing `float` or
`double` triggers a float parse falling back to the raw string, else
the raw string is stored; with no (or an empty) datatype the raw
string is stored. -/
def coerceLiteral (value : String) (datatype : Option String) : PyValue :=
  match datatype with
  | some dt =>
      if dt ≠ "" then
        if containsSub dt "integer" || containsSub dt "int" then
          match pyIntParse value with
          | some n => PyValue.int n
          | Option.none => PyValue.str value
        else if containsSub dt "float" || containsSub dt "double" then
          match pyFloatParse value with
          | some q => PyValue.float q
          | Option.none => PyValue.str value
        else PyValue.str value
      else PyValue.str value
  | Option.none => PyValue.str value

/-- The coercion policy as the specification states it (§4.2): purely
a case split on the datatype URI's text, with no separate truthiness
test. Stated from the spec's words, to be compared with
`coerceLiteral` from the source. -/
def specCoerce (value : String) (datatype : Option String) : PyValue :=
  match datatype with
  | some dt =>
      if containsSub dt "integer" || containsSub dt "int" then
        match pyIntParse value with
        | some n => PyValue.int n
        | Option.none => PyValue.str value
      else if containsSub dt "float" || containsSub dt "double" then
        match pyFloatParse value with
        | some q => PyValue.float q
        | Option.none => PyValue.str value
      else PyValue.str value
  | Option.none => PyValue.str value

/-- The skeleton node document of lines 128-132 (also the default of
lines 167-171): `_uri` is the URI string for a URIRef and Python
`None` otherwise, `_label` is the last `/`-segment of the URI for a
URIRef and `str(node)` otherwise, `_rdftype` tags the kind. -/
def skeleton (x : Term) : PyDict :=
  [("_uri", match x with | Term.uriRef u => PyValue.str u | _ => PyValue.none),
   ("_label", PyValue.str
      (match x with | Term.uriRef u => lastSplitSeg '/' u | _ => termStr x)),
   ("_rdftype", PyValue.str
      (match x with | Term.uriRef _ => "URIRef" | _ => "BNode"))]

/-- State built by the node-extraction pass (lines 112-160): the
`nodes` set and the `node_data` dict. -/
structure ExtractState where
  nodes : List Term
  nodeData : List (Term × PyDict)
deriving Repr

/-- Lines 117-123: add the subject, and a resource object, to the
`nodes` set. -/
def registerNodes (ns : List Term) (t : Triple) : List Term :=
  let ns1 := if isResource t.subj then setAdd ns t.subj else ns
  if isResource t.obj then setAdd ns1 t.obj else ns1

/-- Lines 126-160: for a resource subject, ensure its `node_data`
entry exists (initialised to the skeleton), and if the object is a
literal, set the coerced value under the predicate local name.
Mutation of the entry dict is modelled by re-assigning the updated
dict under the subject key. -/
def updateData (nd : List (Term × PyDict)) (t : Triple) : List (Term × PyDict) :=
  if isResource t.subj then
    let d0 := (alGet nd t.subj).getD (skeleton t.subj)
    match t.obj with
    | Term.literal v dt =>
        alSet nd t.subj
          (alSet d0 (predLocalname (termStr t.pred)) (coerceLiteral v dt))
    | _ => alSet nd t.subj d0
  else nd

/-- One iteration of the `for subject, predicate, obj in foaf_graph`
loop of lines 116-160. -/
def processTriple (st : ExtractState) (t : Triple) : ExtractState :=
  ⟨registerNodes st.nodes t, updateData st.nodeData t⟩

/-- The whole node-extraction pass over the graph (step 1 of
`transform_rdf_to_lpgt`). -/
def extractPass (ts : List Triple) : ExtractState :=
  ts.foldl processTriple ⟨[], []⟩

/-- `node_data.get(node, default-skeleton)` of lines 167-171: the
document inserted for a node. -/
def docFor (nd : List (Term × PyDict)) (n : Term) : PyDict :=
  (alGet nd n).getD (skeleton n)

/-- The document inserted for node `n` given the extraction state. -/
def nodeDocFor (st : ExtractState) (n : Term) : PyDict :=
  docFor st.nodeData n

/-- The literal-object triples of `ts` with subject `s` whose
predicate derives property key `k`, in iteration order; used to state
the last-write-wins property. -/
def litTriplesFor (ts : List Triple) (s : Term) (k : String) :
    List (String × Option String) :=
  ts.filterMap (fun t =>
    match t.obj with
    | Term.literal v dt =>
        if t.subj = s ∧ predLocalname (termStr t.pred) = k then some (v, dt)
        else Option.none
    | _ => Option.none)

/-- The node-insert loop of lines 162-177. `ins i` is the sink's
response to the `i`-th `node_collection.insert` call: an assigned
`_key`, or `Option.none` when the call raises, which aborts the whole
run (the enclosing `except` of line 211). On abort the documents
inserted so far are returned; they are not rolled back. -/
def insertLoop (ins : Nat → Option String) (st : ExtractState) :
    Nat → List Term → List PyDict → List (Term × String) →
    Except (List PyDict) (List PyDict × List (Term × String))
  | _, [], docs, km => Except.ok (docs, km)
  | i, n :: rest, docs, km =>
      match ins i with
      | some key =>
          insertLoop ins st (i + 1) rest (docs ++ [nodeDocFor st n])
            (km ++ [(n, key)])
      | Option.none => Except.error docs

/-- A sink oracle on which every insert succeeds. -/
def defaultIns : Nat → Option String :=
  fun i => some (Nat.repr i)

/-- Lines 183-202: the relation document built from one triple, or
`Option.none` when the triple is skipped (literal object, or an
endpoint missing from `node_key_map`). -/
def relDocFor (km : List (Term × String)) (t : Triple) : Option PyDict :=
  if isResource t.obj then
    match alGet km t.subj, alGet km t.obj with
    | some ks, some ko =>
        some [("_from", PyValue.str (String.append "Node/" ks)),
              ("_to", PyValue.str (String.append "Node/" ko)),
              ("predicate", PyValue.str (termStr t.pred)),
              ("predicate_label", PyValue.str (predLocalname (termStr t.pred))),
              ("_rdftype", PyValue.str "ObjectProperty")]
    | _, _ => Option.none
  else Option.none

/-- The relation-extraction pass (step 3 of `transform_rdf_to_lpgt`). -/
def buildRelations (ts : List Triple) (km : List (Term × String)) :
    List PyDict :=
  ts.filterMap (relDocFor km)

/-- Outcome of one `transform_rdf_to_lpgt` run: the boolean the method
returns, and the documents that reached the two collections. -/
structure RunOutcome where
  success : Bool
  sinkNodes : List PyDict
  sinkRels : List PyDict
deriving DecidableEq, Repr

/-- `transform_rdf_to_lpgt` (lines 103-213): extraction pass, then the
node-insert loop — whose failure aborts the run with `False` before
any relation work — then relation building and the bulk insert. -/
def runTransform (ins : Nat → Option String) (ts : List Triple) : RunOutcome :=
  let st := extractPass ts
  match insertLoop ins st 0 st.nodes [] [] with
  | Except.error docs => ⟨false, docs, []⟩
  | Except.ok (docs, km) => ⟨true, docs, buildRelations ts km⟩

/-- The three field names a skeleton node document carries. -/
def reservedKeys : List String := ["_uri", "_label", "_rdftype"]

/-- A triple whose literal object is stored under one of the reserved
skeleton field names. -/
def litKeyReserved (t : Triple) : Bool :=
  match t.obj with
  | Term.literal _ _ => decide (predLocalname (termStr t.pred) ∈ reservedKeys)
  | _ => false

/-- The seven pipeline steps of `create_lpgt_database` (lines 291-334),
in call order. -/
inductive Step where
  | connect
  | loadData
  | recreateDb
  | createColls
  | transform
  | graphDef
  | verify
deriving DecidableEq, Repr

/-- Success/failure of each pipeline step of one run; each step method
catches its exceptions and signals failure through its return value
(`False`, or `None` for `load_foaf_data`). -/
structure StepOutcomes where
  connectOk : Bool
  loadOk : Bool
  recreateOk : Bool
  collectionsOk : Bool
  transformOk : Bool
  graphDefOk : Bool
  verifyOk : Bool
deriving DecidableEq, Repr

/-- `create_lpgt_database` (lines 291-334): runs the seven steps in
order, returning `False` at the first failing step; also records which
steps were invoked. -/
def create_lpgt_database (r : StepOutcomes) : Bool × List Step :=
  if r.connectOk = false then (false, [Step.connect])
  else if r.loadOk = false then (false, [Step.connect, Step.loadData])
  else if r.recreateOk = false then
    (false, [Step.connect, Step.loadData, Step.recreateDb])
  else if r.collectionsOk = false then
    (false, [Step.connect, Step.loadData, Step.recreateDb, Step.createColls])
  else if r.transformOk = false then
    (false, [Step.connect, Step.loadData, Step.recreateDb, Step.createColls,
      Step.transform])
  else if r.graphDefOk = false then
    (false, [Step.connect, Step.loadData, Step.recreateDb, Step.createColls,
      Step.transform, Step.graphDef])
  else if r.verifyOk = false then
    (false, [Step.connect, Step.loadData, Step.recreateDb, Step.createColls,
      Step.transform, Step.graphDef, Step.verify])
  else
    (true, [Step.connect, Step.loadData, Step.recreateDb, Step.createColls,
      Step.transform, Step.graphDef, Step.verify])

/-- The step prefix the pipeline is expected to run: every step up to
and including the first failing one, all seven on success. -/
def pipelineTrace (r : StepOutcomes) : List Step :=
  [Step.connect] ++
    (if r.connectOk then [Step.loadData] ++
      (if r.loadOk then [Step.recreateDb] ++
        (if r.recreateOk then [Step.createColls] ++
          (if r.collectionsOk then [Step.transform] ++
            (if r.transformOk then [Step.graphDef] ++
              (if r.graphDefOk then [Step.verify] else []) else []) else [])
          else []) else []) else [])

/-- A Python return value of a pipeline step method: a boolean, a
parsed graph, or `None`. -/
inductive PyRet where
  | bool (b : Bool)
  | graph (g : List Triple)
  | noneVal
deriving DecidableEq, Repr

/-- `load_foaf_data` (lines 46-64): returns the parsed graph, or
Python `None` when the data file is missing or parsing raises
(`parseOutcome = Option.none`). -/
def load_foaf_data (parseOutcome : Option (List Triple)) : PyRet :=
  match parseOutcome with
  | some g => PyRet.graph g
  | Option.none => PyRet.noneVal

/-- The specification's end-to-end FOAF example graph: alice has name
"Alice" and knows bob, bob has name "Bob". -/
def exGraphFoaf : List Triple :=
  [⟨Term.uriRef "http://example.org/alice",
    Term.uriRef "http://xmlns.com/foaf/0.1/name",
    Term.literal "Alice" Option.none⟩,
   ⟨Term.uriRef "http://example.org/alice",
    Term.uriRef "http://xmlns.com/foaf/0.1/knows",
    Term.uriRef "http://example.org/bob"⟩,
   ⟨Term.uriRef "http://example.org/bob",
    Term.uriRef "http://xmlns.com/foaf/0.1/name",
    Term.literal "Bob" Option.none⟩]

/-- A graph whose one literal property key (the local name of
`http://e/p/_uri`) collides with the reserved `_uri` field. -/
def exGraphCollide : List Triple :=
  [⟨Term.uriRef "http://e/s", Term.uriRef "http://e/p/_uri",
    Term.literal "7" (some "http://www.w3.org/2001/XMLSchema#integer")⟩]

/-- A graph whose one literal property key collides with `_rdftype`. -/
def exGraphRes : List Triple :=
  [⟨Term.uriRef "http://e/s", Term.uriRef "http://e/q/_rdftype",
    Term.literal "42" (some "http://www.w3.org/2001/XMLSchema#integer")⟩]

/-- Two literal triples with the same subject and the same predicate. -/
def exGraphRepeat : List Triple :=
  [⟨Term.uriRef "http://e/s", Term.uriRef "http://e/p",
    Term.literal "A" Option.none⟩,
   ⟨Term.uriRef "http://e/s", Term.uriRef "http://e/p",
    Term.literal "B" Option.none⟩]

/-- One object-property triple; its object occurs only in object
position. -/
def exGraphEdge : List Triple :=
  [⟨Term.uriRef "http://e/a", Term.uriRef "http://e/p",
    Term.uriRef "http://e/b"⟩]

/-- A sink oracle on which every insert call raises. -/
def exInsFail : Nat → Option String := fun _ => Option.none

/-- Whether a stored value is a Python string. -/
def isStringValue : PyValue → Bool
  | PyValue.str _ => true
  | _ => false

/-- Whether a stored value is Python `None`. -/
def isNoneValue : PyValue → Bool
  | PyValue.none => true
  | _ => false

/-! ### Association-list lemmas -/

theorem alGet_alSet {κ α : Type} [DecidableEq κ]
    (l : List (κ × α)) (a b : κ) (v : α) :
    alGet (alSet l a v) b = if a = b then some v else alGet l b := by
  induction l with
  | nil =>
      by_cases hab : a = b <;> simp [alSet, alGet, hab]
  | cons p r ih =>
      obtain ⟨k, w⟩ := p
      by_cases hka : k = a
      · subst hka
        by_cases hab : k = b <;> simp [alSet, alGet, hab]
      · by_cases hkb : k = b
        · have hab : ¬ a = b := fun h => hka (hkb.trans h.symm)
          have hba : ¬ b = a := fun h => hab h.symm
          simp [alSet, alGet, hka, hkb, hab, hba]
        · simp [alSet, alGet, hka, hkb, ih]

theorem alGet_isSome_iff {κ α : Type} [DecidableEq κ]
    (l : List (κ × α)) (k : κ) :
    (alGet l k).isSome = true ↔ k ∈ l.map Prod.fst := by
  induction l with
  | nil => simp [alGet]
  | cons p r ih =>
      obtain ⟨k', v⟩ := p
      by_cases h : k' = k
      · subst h
        simp [alGet]
      · rw [List.map_cons]
        simp only [alGet, if_neg h, List.mem_cons]
        rw [ih]
        constructor
        · exact Or.inr
        · rintro (rfl | hm)
          · exact absurd rfl h
          · exact hm

theorem alGet_append_of_some {κ α : Type} [DecidableEq κ]
    (l l2 : List (κ × α)) (k : κ) (v : α) (h : alGet l k = some v) :
    alGet (l ++ l2) k = some v := by
  induction l with
  | nil => simp [alGet] at h
  | cons p r ih =>
      obtain ⟨k', w⟩ := p
      by_cases hk : k' = k
      · subst hk
        simp [alGet] at h ⊢
        exact h
      · simp [alGet, hk] at h ⊢
        exact ih h

/-! ### Node-set lemmas -/

theorem mem_setAdd (l : List Term) (x y : Term) :
    y ∈ setAdd l x ↔ y ∈ l ∨ y = x := by
  by_cases h : x ∈ l
  · simp only [setAdd, if_pos h]
    constructor
    · exact Or.inl
    · rintro (hy | rfl)
      · exact hy
      · exact h
  · simp [setAdd, if_neg h]

theorem nodup_setAdd (l : List Term) (x : Term) (h : l.Nodup) :
    (setAdd l x).Nodup := by
  by_cases hx : x ∈ l
  · simpa [setAdd, if_pos hx] using h
  · simp only [setAdd, if_neg hx]
    rw [List.nodup_append]
    refine ⟨h, List.nodup_singleton x, ?_⟩
    intro a ha hb
    rw [List.mem_singleton] at hb
    subst hb
    exact hx ha

theorem mem_registerNodes (ns : List Term) (t : Triple) (x : Term) :
    x ∈ registerNodes ns t ↔
      x ∈ ns ∨ (isResource x = true ∧ (t.subj = x ∨ t.obj = x)) := by
  unfold registerNodes
  by_cases hs : isResource t.subj <;> by_cases ho : isResource t.obj <;>
    simp only [hs, ho, if_true, if_false, mem_setAdd, Bool.false_eq_true]
  · constructor
    · rintro ((h | rfl) | rfl)
      · exact Or.inl h
      · exact Or.inr ⟨hs, Or.inl rfl⟩
      · exact Or.inr ⟨ho, Or.inr rfl⟩
    · rintro (h | ⟨hr, (rfl | rfl)⟩)
      · exact Or.inl (Or.inl h)
      · exact Or.inl (Or.inr rfl)
      · exact Or.inr rfl
  · constructor
    · rintro (h | rfl)
      · exact Or.inl h
      · exact Or.inr ⟨hs, Or.inl rfl⟩
    · rintro (h | ⟨hr, (rfl | rfl)⟩)
      · exact Or.inl h
      · exact Or.inr rfl
      · exact absurd hr (by simp [ho])
  · constructor
    · rintro (h | rfl)
      · exact Or.inl h
      · exact Or.inr ⟨ho, Or.inr rfl⟩
    · rintro (h | ⟨hr, (rfl | rfl)⟩)
      · exact Or.inl h
      · exact absurd hr (by simp [hs])
      · exact Or.inr rfl
  · constructor
    · exact Or.inl
    · rintro (h | ⟨hr, (rfl | rfl)⟩)
      · exact h
      · exact absurd hr (by simp [hs])
      · exact absurd hr (by simp [ho])

theorem nodup_registerNodes (ns : List Term) (t : Triple) (h : ns.Nodup) :
    (registerNodes ns t).Nodup := by
  unfold registerNodes
  by_cases hs : isResource t.subj <;> by_cases ho : isResource t.obj <;>
    simp only [hs, ho, if_true, if_false] <;>
    first
      | exact nodup_setAdd _ _ (nodup_setAdd _ _ h)
      | exact nodup_setAdd _ _ h
      | exact h

/-! ### Extraction-pass lemmas -/

theorem extractPass_append (ts : List Triple) (t : Triple) :
    extractPass (ts ++ [t]) = processTriple (extractPass ts) t := by
  simp [extractPass, List.foldl_append]

theorem foldl_nodes_mem (ts : List Triple) (st : ExtractState) (x : Term) :
    x ∈ (ts.foldl processTriple st).nodes ↔
      x ∈ st.nodes ∨
        (isResource x = true ∧ ∃ t, t ∈ ts ∧ (t.subj = x ∨ t.obj = x)) := by
  induction ts generalizing st with
  | nil => simp
  | cons t ts ih =>
      rw [List.foldl_cons, ih]
      rw [show (processTriple st t).nodes = registerNodes st.nodes t from rfl]
      rw [mem_registerNodes]
      constructor
      · rintro ((h | ⟨hr, hst⟩) | ⟨hr, t', ht', hp⟩)
        · exact Or.inl h
        · exact Or.inr ⟨hr, t, List.mem_cons_self t ts, hst⟩
        · exact Or.inr ⟨hr, t', List.mem_cons_of_mem t ht', hp⟩
      · rintro (h | ⟨hr, t', ht', hp⟩)
        · exact Or.inl (Or.inl h)
        · rcases List.mem_cons.1 ht' with rfl | hmem
          · exact Or.inl (Or.inr ⟨hr, hp⟩)
          · exact Or.inr ⟨hr, t', hmem, hp⟩

theorem mem_extractNodes (ts : List Triple) (x : Term) :
    x ∈ (extractPass ts).nodes ↔
      isResource x = true ∧ ∃ t, t ∈ ts ∧ (t.subj = x ∨ t.obj = x) := by
  rw [extractPass, foldl_nodes_mem]
  simp

theorem nodup_extractNodes (ts : List Triple) :
    (extractPass ts).nodes.Nodup := by
  rw [extractPass]
  have h : ∀ st : ExtractState, st.nodes.Nodup →
      (ts.foldl processTriple st).nodes.Nodup := by
    induction ts with
    | nil => exact fun st h => h
    | cons t ts ih =>
        intro st h
        rw [List.foldl_cons]
        exact ih _ (nodup_registerNodes st.nodes t h)
  exact h ⟨[], []⟩ List.nodup_nil

theorem docFor_updateData (nd : List (Term × PyDict)) (t : Triple) (x : Term) :
    docFor (updateData nd t) x =
      if isResource t.subj = true ∧ t.subj = x then
        (match t.obj with
         | Term.literal v dt =>
             alSet (docFor nd x) (predLocalname (termStr t.pred))
               (coerceLiteral v dt)
         | _ => docFor nd x)
      else docFor nd x := by
  unfold updateData docFor
  by_cases hs : isResource t.subj
  · cases ho : t.obj with
    | literal v dt =>
        by_cases hx : t.subj = x
        · subst hx
          simp [hs, alGet_alSet]
        · simp [hs, hx, alGet_alSet]
    | uriRef u =>
        by_cases hx : t.subj = x
        · subst hx
          simp [hs, alGet_alSet]
        · simp [hs, hx, alGet_alSet]
    | bnode b =>
        by_cases hx : t.subj = x
        · subst hx
          simp [hs, alGet_alSet]
        · simp [hs, hx, alGet_alSet]
  · simp [hs]

theorem litTriplesFor_append (ts ts2 : List Triple) (s : Term) (k : String) :
    litTriplesFor (ts ++ ts2) s k = litTriplesFor ts s k ++ litTriplesFor ts2 s k := by
  simp [litTriplesFor, List.filterMap_append]

theorem docFor_extract_lww (ts : List Triple) (s : Term) (k : String)
    (v : String) (dt : Option String)
    (hs : isResource s = true)
    (hlast : (litTriplesFor ts s k).getLast? = some (v, dt)) :
    alGet (docFor (extractPass ts).nodeData s) k = some (coerceLiteral v dt) := by
  induction ts using List.reverseRecOn with
  | nil => simp [litTriplesFor] at hlast
  | append_singleton ts t ih =>
      rw [litTriplesFor_append] at hlast
      rw [extractPass_append]
      rw [show (processTriple (extractPass ts) t).nodeData =
        updateData (extractPass ts).nodeData t from rfl]
      rw [docFor_updateData]
      cases ho : t.obj with
      | literal v' dt' =>
          by_cases hc : t.subj = s ∧ predLocalname (termStr t.pred) = k
          · have hsingle : litTriplesFor [t] s k = [(v', dt')] := by
              simp [litTriplesFor, ho, hc.1, hc.2]
            rw [hsingle, List.getLast?_concat] at hlast
            obtain ⟨rfl, rfl⟩ : v' = v ∧ dt' = dt := by
              have := Option.some.inj hlast
              exact ⟨congrArg Prod.fst this, congrArg Prod.snd this⟩
            have hcond : isResource t.subj = true ∧ t.subj = s :=
              ⟨hc.1 ▸ hs, hc.1⟩
            rw [if_pos hcond, alGet_alSet, if_pos hc.2]
          · have hsingle : litTriplesFor [t] s k = [] := by
              simp only [litTriplesFor, List.filterMap]
              rw [ho]
              simp [hc]
            rw [hsingle, List.append_nil] at hlast
            by_cases hcond : isResource t.subj = true ∧ t.subj = s
            · rw [if_pos hcond]
              have hkne : ¬ predLocalname (termStr t.pred) = k := by
                intro hk
                exact hc ⟨hcond.2, hk⟩
              rw [alGet_alSet, if_neg hkne]
              exact ih hlast
            · rw [if_neg hcond]
              exact ih hlast
      | uriRef u =>
          have hsingle : litTriplesFor [t] s k = [] := by
            simp only [litTriplesFor, List.filterMap]
            rw [ho]
          rw [hsingle, List.append_nil] at hlast
          by_cases hcond : isResource t.subj = true ∧ t.subj = s
          · rw [if_pos hcond]
            exact ih hlast
          · rw [if_neg hcond]
            exact ih hlast
      | bnode b =>
          have hsingle : litTriplesFor [t] s k = [] := by
            simp only [litTriplesFor, List.filterMap]
            rw [ho]
          rw [hsingle, List.append_nil] at hlast
          by_cases hcond : isResource t.subj = true ∧ t.subj = s
          · rw [if_pos hcond]
            exact ih hlast
          · rw [if_neg hcond]
            exact ih hlast

theorem alGet_foldl_none (ts : List Triple) (x : Term) (st : ExtractState)
    (h0 : alGet st.nodeData x = Option.none)
    (h : ∀ t ∈ ts, t.subj ≠ x) :
    alGet (ts.foldl processTriple st).nodeData x = Option.none := by
  induction ts generalizing st with
  | nil => exact h0
  | cons t ts ih =>
      rw [List.foldl_cons]
      apply ih
      · show alGet (updateData st.nodeData t) x = _
        unfold updateData
        by_cases hsr : isResource t.subj
        · have hne : t.subj ≠ x := h t (List.mem_cons_self t ts)
          cases t.obj <;> simp [hsr, alGet_alSet, hne, h0]
        · simp [hsr, h0]
      · intro t' ht'
        exact h t' (List.mem_cons_of_mem t ht')

/-! ### Skeleton and reserved-field lemmas -/

theorem alGet_skeleton_not_reserved (x : Term) (k : String)
    (h : k ∉ reservedKeys) : alGet (skeleton x) k = Option.none := by
  simp only [reservedKeys, List.mem_cons, List.not_mem_nil, or_false,
    not_or] at h
  obtain ⟨h1, h2, h3⟩ := h
  have n1 : ¬ ("_uri" = k) := fun hh => h1 hh.symm
  have n2 : ¬ ("_label" = k) := fun hh => h2 hh.symm
  have n3 : ¬ ("_rdftype" = k) := fun hh => h3 hh.symm
  simp [skeleton, alGet, n1, n2, n3]

theorem updateData_inv (nd : List (Term × PyDict)) (t : Triple)
    (hKt : litKeyReserved t = false)
    (hA : ∀ x d, alGet nd x = some d → ∀ k, k ∈ reservedKeys →
      alGet d k = alGet (skeleton x) k)
    (hB : ∀ x d, alGet nd x = some d → ∀ k v, k ∉ reservedKeys →
      alGet d k = some v → ∃ lv ldt, v = coerceLiteral lv ldt) :
    (∀ x d, alGet (updateData nd t) x = some d → ∀ k, k ∈ reservedKeys →
      alGet d k = alGet (skeleton x) k) ∧
    (∀ x d, alGet (updateData nd t) x = some d → ∀ k v, k ∉ reservedKeys →
      alGet d k = some v → ∃ lv ldt, v = coerceLiteral lv ldt) := by
  unfold updateData
  by_cases hs : isResource t.subj
  · cases ho : t.obj with
    | literal lv ldt =>
        have hkey : predLocalname (termStr t.pred) ∉ reservedKeys := by
          unfold litKeyReserved at hKt
          rw [ho] at hKt
          simpa using hKt
        simp only [hs, if_true]
        constructor
        · intro x d hget k hk
          rw [alGet_alSet] at hget
          by_cases hx : t.subj = x
          · rw [if_pos hx] at hget
            have hd := (Option.some.inj hget).symm
            subst hd
            rw [alGet_alSet, if_neg (fun hh => hkey (by rw [hh]; exact hk))]
            cases hdd : alGet nd t.subj with
            | none => simp [hdd, hx]
            | some dd =>
                simp only [Option.getD_some]
                rw [← hx]
                exact hA t.subj dd hdd k hk
          · rw [if_neg hx] at hget
            exact hA x d hget k hk
        · intro x d hget k v hk hv
          rw [alGet_alSet] at hget
          by_cases hx : t.subj = x
          · rw [if_pos hx] at hget
            have hd := (Option.some.inj hget).symm
            subst hd
            rw [alGet_alSet] at hv
            by_cases hkk : predLocalname (termStr t.pred) = k
            · rw [if_pos hkk] at hv
              exact ⟨lv, ldt, (Option.some.inj hv).symm⟩
            · rw [if_neg hkk] at hv
              cases hdd : alGet nd t.subj with
              | none =>
                  rw [hdd] at hv
                  simp only [Option.getD_none] at hv
                  rw [alGet_skeleton_not_reserved t.subj k hk] at hv
                  exact absurd hv (by simp)
              | some dd =>
                  rw [hdd] at hv
                  simp only [Option.getD_some] at hv
                  exact hB t.subj dd hdd k v hk hv
          · rw [if_neg hx] at hget
            exact hB x d hget k v hk hv
    | uriRef u =>
        simp only [hs, if_true]
        constructor
        · intro x d hget k hk
          rw [alGet_alSet] at hget
          by_cases hx : t.subj = x
          · rw [if_pos hx] at hget
            have hd := (Option.some.inj hget).symm
            subst hd
            cases hdd : alGet nd t.subj with
            | none => simp [hdd, hx]
            | some dd =>
                simp only [Option.getD_some]
                rw [← hx]
                exact hA t.subj dd hdd k hk
          · rw [if_neg hx] at hget
            exact hA x d hget k hk
        · intro x d hget k v hk hv
          rw [alGet_alSet] at hget
          by_cases hx : t.subj = x
          · rw [if_pos hx] at hget
            have hd := (Option.some.inj hget).symm
            subst hd
            cases hdd : alGet nd t.subj with
            | none =>
                rw [hdd] at hv
                simp only [Option.getD_none] at hv
                rw [alGet_skeleton_not_reserved t.subj k hk] at hv
                exact absurd hv (by simp)
            | some dd =>
                rw [hdd] at hv
                simp only [Option.getD_some] at hv
                exact hB t.subj dd hdd k v hk hv
          · rw [if_neg hx] at hget
            exact hB x d hget k v hk hv
    | bnode b =>
        simp only [hs, if_true]
        constructor
        · intro x d hget k hk
          rw [alGet_alSet] at hget
          by_cases hx : t.subj = x
          · rw [if_pos hx] at hget
            have hd := (Option.some.inj hget).symm
            subst hd
            cases hdd : alGet nd t.subj with
            | none => simp [hdd, hx]
            | some dd =>
                simp only [Option.getD_some]
                rw [← hx]
                exact hA t.subj dd hdd k hk
          · rw [if_neg hx] at hget
            exact hA x d hget k hk
        · intro x d hget k v hk hv
          rw [alGet_alSet] at hget
          by_cases hx : t.subj = x
          · rw [if_pos hx] at hget
            have hd := (Option.some.inj hget).symm
            subst hd
            cases hdd : alGet nd t.subj with
            | none =>
                rw [hdd] at hv
                simp only [Option.getD_none] at hv
                rw [alGet_skeleton_not_reserved t.subj k hk] at hv
                exact absurd hv (by simp)
            | some dd =>
                rw [hdd] at hv
                simp only [Option.getD_some] at hv
                exact hB t.subj dd hdd k v hk hv
          · rw [if_neg hx] at hget
            exact hB x d hget k v hk hv
  · simp only [hs]
    exact ⟨hA, hB⟩

/-! ### Insert-loop and run lemmas -/

theorem insertLoop_ok (ins : Nat → Option String) (st : ExtractState)
    (h : ∀ j, (ins j).isSome = true) :
    ∀ (rem : List Term) (i : Nat) (docs : List PyDict)
      (km : List (Term × String)),
      ∃ km2, insertLoop ins st i rem docs km =
          Except.ok (docs ++ rem.map (nodeDocFor st), km2) ∧
        km2.map Prod.fst = km.map Prod.fst ++ rem := by
  intro rem
  induction rem with
  | nil =>
      intro i docs km
      exact ⟨km, by simp [insertLoop], by simp⟩
  | cons n rest ih =>
      intro i docs km
      obtain ⟨key, hkey⟩ := Option.isSome_iff_exists.mp (h i)
      obtain ⟨km2, heq, hkeys⟩ := ih (i + 1) (docs ++ [nodeDocFor st n])
        (km ++ [(n, key)])
      refine ⟨km2, ?_, ?_⟩
      · rw [insertLoop, hkey]
        show insertLoop ins st (i + 1) rest (docs ++ [nodeDocFor st n])
          (km ++ [(n, key)]) = _
        rw [heq]
        simp
      · rw [hkeys]
        simp

theorem insertLoop_fails (ins : Nat → Option String) (st : ExtractState) :
    ∀ (rem : List Term) (i : Nat) (base : Nat) (docs : List PyDict)
      (km : List (Term × String)),
      i < rem.length → ins (base + i) = Option.none →
      (∀ j, j < i → (ins (base + j)).isSome = true) →
      insertLoop ins st base rem docs km =
        Except.error (docs ++ (rem.take i).map (nodeDocFor st)) := by
  intro rem
  induction rem with
  | nil =>
      intro i base docs km hi
      exact absurd hi (by simp)
  | cons n rest ih =>
      intro i base docs km hi hfail hok
      cases i with
      | zero =>
          rw [Nat.add_zero] at hfail
          rw [insertLoop, hfail]
          simp
      | succ i' =>
          have h0 : (ins (base + 0)).isSome = true := hok 0 (Nat.succ_pos i')
          rw [Nat.add_zero] at h0
          obtain ⟨key, hkey⟩ := Option.isSome_iff_exists.mp h0
          rw [insertLoop, hkey]
          show insertLoop ins st (base + 1) rest (docs ++ [nodeDocFor st n])
            (km ++ [(n, key)]) = _
          have hrec := ih i' (base + 1) (docs ++ [nodeDocFor st n])
            (km ++ [(n, key)]) (by simpa using Nat.lt_of_succ_lt_succ hi)
            (by rw [show base + 1 + i' = base + (i' + 1) by omega]; exact hfail)
            (fun j hj => by
              rw [show base + 1 + j = base + (j + 1) by omega]
              exact hok (j + 1) (Nat.succ_lt_succ hj))
          rw [hrec]
          simp [List.take_succ_cons]

theorem runTransform_default (ts : List Triple) :
    ∃ km, runTransform defaultIns ts =
        ⟨true, (extractPass ts).nodes.map (nodeDocFor (extractPass ts)),
          buildRelations ts km⟩ ∧
      km.map Prod.fst = (extractPass ts).nodes := by
  obtain ⟨km2, heq, hkeys⟩ := insertLoop_ok defaultIns (extractPass ts)
    (fun j => rfl) (extractPass ts).nodes 0 [] []
  refine ⟨km2, ?_, by simpa using hkeys⟩
  rw [runTransform]
  rw [heq]
  simp

/-! ### Relation-pass lemmas -/

theorem length_filterMap_eq {α β : Type} (l : List α) (f : α → Option β)
    (p : α → Bool) (h : ∀ a ∈ l, (f a).isSome = p a) :
    (l.filterMap f).length = (l.filter p).length := by
  induction l with
  | nil => rfl
  | cons a l ih =>
      have ha := h a (List.mem_cons_self a l)
      rw [List.filterMap_cons, List.filter_cons]
      cases hfa : f a with
      | none =>
          rw [hfa] at ha
          simp only [Option.isSome_none] at ha
          rw [if_neg (by simp [← ha])]
          exact ih (fun b hb => h b (List.mem_cons_of_mem a hb))
      | some b =>
          rw [hfa] at ha
          simp only [Option.isSome_some] at ha
          rw [if_pos (by simp [← ha])]
          simp only [List.length_cons]
          rw [ih (fun b hb => h b (List.mem_cons_of_mem a hb))]

theorem mem_buildRelations (ts : List Triple) (km : List (Term × String))
    (d : PyDict) (hd : d ∈ buildRelations ts km) :
    ∃ t, t ∈ ts ∧ isResource t.obj = true ∧
      ∃ ks ko, alGet km t.subj = some ks ∧ alGet km t.obj = some ko ∧
        d = [("_from", PyValue.str (String.append "Node/" ks)),
             ("_to", PyValue.str (String.append "Node/" ko)),
             ("predicate", PyValue.str (termStr t.pred)),
             ("predicate_label", PyValue.str (predLocalname (termStr t.pred))),
             ("_rdftype", PyValue.str "ObjectProperty")] := by
  obtain ⟨t, ht, heq⟩ := List.mem_filterMap.mp hd
  refine ⟨t, ht, ?_⟩
  unfold relDocFor at heq
  by_cases ho : isResource t.obj
  · rw [if_pos ho] at heq
    refine ⟨ho, ?_⟩
    cases hks : alGet km t.subj with
    | none => rw [hks] at heq; exact absurd heq (by simp)
    | some ks =>
        cases hko : alGet km t.obj with
        | none => rw [hks, hko] at heq; exact absurd heq (by simp)
        | some ko =>
            rw [hks, hko] at heq
            exact ⟨ks, ko, rfl, rfl, (Option.some.inj heq).symm⟩
  · rw [if_neg ho] at heq
    exact absurd heq (by simp)

theorem relDocFor_isSome (ts : List Triple) (km : List (Term × String))
    (hkeys : km.map Prod.fst = (extractPass ts).nodes)
    (hS : ∀ t ∈ ts, isResource t.subj = true)
    (t : Triple) (ht : t ∈ ts) :
    (relDocFor km t).isSome = isResource t.obj := by
  unfold relDocFor
  by_cases ho : isResource t.obj
  · rw [if_pos ho, ho]
    have hsubj : t.subj ∈ (extractPass ts).nodes :=
      (mem_extractNodes ts t.subj).mpr ⟨hS t ht, t, ht, Or.inl rfl⟩
    have hobj : t.obj ∈ (extractPass ts).nodes :=
      (mem_extractNodes ts t.obj).mpr ⟨ho, t, ht, Or.inr rfl⟩
    rw [← hkeys] at hsubj hobj
    obtain ⟨ks, hks⟩ := Option.isSome_iff_exists.mp
      ((alGet_isSome_iff km t.subj).mpr hsubj)
    obtain ⟨ko, hko⟩ := Option.isSome_iff_exists.mp
      ((alGet_isSome_iff km t.obj).mpr hobj)
    rw [hks, hko]
    rfl
  · rw [if_neg ho]
    simp [ho]

theorem foldl_data_inv (ts : List Triple) :
    ∀ st : ExtractState,
      (∀ t ∈ ts, litKeyReserved t = false) →
      (∀ x d, alGet st.nodeData x = some d → ∀ k, k ∈ reservedKeys →
        alGet d k = alGet (skeleton x) k) →
      (∀ x d, alGet st.nodeData x = some d → ∀ k v, k ∉ reservedKeys →
        alGet d k = some v → ∃ lv ldt, v = coerceLiteral lv ldt) →
      (∀ x d, alGet (ts.foldl processTriple st).nodeData x = some d →
        ∀ k, k ∈ reservedKeys → alGet d k = alGet (skeleton x) k) ∧
      (∀ x d, alGet (ts.foldl processTriple st).nodeData x = some d →
        ∀ k v, k ∉ reservedKeys → alGet d k = some v →
          ∃ lv ldt, v = coerceLiteral lv ldt) := by
  induction ts with
  | nil => exact fun st _ hA hB => ⟨hA, hB⟩
  | cons t ts ih =>
      intro st hK hA hB
      rw [List.foldl_cons]
      obtain ⟨hA2, hB2⟩ := updateData_inv st.nodeData t
        (hK t (List.mem_cons_self t ts)) hA hB
      exact ih (processTriple st t)
        (fun t2 ht2 => hK t2 (List.mem_cons_of_mem t ht2)) hA2 hB2

theorem extract_data_inv (ts : List Triple)
    (hK : ∀ t ∈ ts, litKeyReserved t = false) :
    (∀ x d, alGet (extractPass ts).nodeData x = some d →
      ∀ k, k ∈ reservedKeys → alGet d k = alGet (skeleton x) k) ∧
    (∀ x d, alGet (extractPass ts).nodeData x = some d →
      ∀ k v, k ∉ reservedKeys → alGet d k = some v →
        ∃ lv ldt, v = coerceLiteral lv ldt) := by
  exact foldl_data_inv ts ⟨[], []⟩ hK
    (fun x d h => by simp [alGet] at h)
    (fun x d h => by simp [alGet] at h)

/-! ### Claim theorems -/

/-- Claim C1: for every triple set, the node-extraction pass produces
exactly one Node record per distinct Resource (URI reference or blank
node) appearing as subject or object of at least one triple; literals
never get Node records, a Resource appearing only in predicate
position gets none, and one document per extracted node reaches the
vertex collection. -/
theorem c1_one_node_per_resource (ts : List Triple) :
    (extractPass ts).nodes.Nodup ∧
    (∀ x, x ∈ (extractPass ts).nodes ↔
      isResource x = true ∧ ∃ t, t ∈ ts ∧ (t.subj = x ∨ t.obj = x)) ∧
    (∀ v dt, Term.literal v dt ∉ (extractPass ts).nodes) ∧
    (runTransform defaultIns ts).sinkNodes.length =
      (extractPass ts).nodes.length := by
  refine ⟨nodup_extractNodes ts, fun x => mem_extractNodes ts x, ?_, ?_⟩
  · intro v dt hmem
    have hres := ((mem_extractNodes ts (Term.literal v dt)).mp hmem).1
    simp [isResource] at hres
  · obtain ⟨km, heq, hkeys⟩ := runTransform_default ts
    rw [heq]
    simp

/-- Closed instance of C1 on the FOAF example graph. -/
theorem c1_one_node_per_resource_witness :
    (extractPass exGraphFoaf).nodes.Nodup ∧
    (∀ x, x ∈ (extractPass exGraphFoaf).nodes ↔
      isResource x = true ∧
        ∃ t, t ∈ exGraphFoaf ∧ (t.subj = x ∨ t.obj = x)) ∧
    (∀ v dt, Term.literal v dt ∉ (extractPass exGraphFoaf).nodes) ∧
    (runTransform defaultIns exGraphFoaf).sinkNodes.length =
      (extractPass exGraphFoaf).nodes.length :=
  c1_one_node_per_resource exGraphFoaf

/-- Claim C2: on a triple set whose subjects are all Resources (the
RDF data model guarantees this), the relation pass persists exactly
one Relation record per triple whose object is a Resource — zero for
literal-object triples, with no deduplication of parallel edges. -/
theorem c2_one_relation_per_resource_triple (ts : List Triple)
    (hS : ∀ t ∈ ts, isResource t.subj = true) :
    (runTransform defaultIns ts).sinkRels.length =
      (ts.filter (fun t => isResource t.obj)).length := by
  obtain ⟨km, heq, hkeys⟩ := runTransform_default ts
  rw [heq]
  exact length_filterMap_eq ts (relDocFor km) (fun t => isResource t.obj)
    (fun t ht => relDocFor_isSome ts km hkeys hS t ht)

/-- Closed instance of C2 on the FOAF example graph: three triples,
one of them with a resource object, give exactly one relation. -/
theorem c2_one_relation_per_resource_triple_witness :
    (∀ t ∈ exGraphFoaf, isResource t.subj = true) ∧
    (runTransform defaultIns exGraphFoaf).sinkRels.length =
      (exGraphFoaf.filter (fun t => isResource t.obj)).length :=
  ⟨by decide, c2_one_relation_per_resource_triple exGraphFoaf (by decide)⟩

/-- Claim C3: the literal coercion of `transform_rdf_to_lpgt` agrees
with the spec's stated policy — integer parse with silent string
fallback when the datatype URI text contains "integer"/"int", float
parse with fallback for "float"/"double", raw string otherwise — and
on the spec's three probes: "42" as integer coerces to 42, "3.14" as
double to the rational 157/50 (that is, 3.14), malformed "abc" as
integer falls back to the string "abc" without raising. -/
theorem c3_datatype_coercion :
    (∀ v dtv, coerceLiteral v dtv = specCoerce v dtv) ∧
    coerceLiteral "42" (some "http://www.w3.org/2001/XMLSchema#integer") =
      PyValue.int 42 ∧
    coerceLiteral "3.14" (some "http://www.w3.org/2001/XMLSchema#double") =
      PyValue.float (mkRat 157 50) ∧
    mkRat 157 50 = (3.14 : Rat) ∧
    coerceLiteral "abc" (some "http://www.w3.org/2001/XMLSchema#integer") =
      PyValue.str "abc" := by
  refine ⟨?_, by decide, by decide, by norm_num [Rat.ofScientific], by decide⟩
  intro v dtv
  cases dtv with
  | none => rfl
  | some dt =>
      by_cases h : dt = ""
      · subst h
        have h1 : (containsSub "" "integer" || containsSub "" "int") = false :=
          rfl
        have h2 : (containsSub "" "float" || containsSub "" "double") = false :=
          rfl
        simp [coerceLiteral, specCoerce, h1, h2]
      · simp only [coerceLiteral, specCoerce]
        rw [if_pos h]

/-- Claim C4: when a subject has several literal-object triples whose
predicates derive the same property key, the Node record holds the
coerced value of the last such triple in iteration order; earlier
values are silently overwritten. -/
theorem c4_last_write_wins (ts : List Triple) (s : Term) (k : String)
    (v : String) (dt : Option String)
    (hs : isResource s = true)
    (hlast : (litTriplesFor ts s k).getLast? = some (v, dt)) :
    alGet (nodeDocFor (extractPass ts) s) k = some (coerceLiteral v dt) :=
  docFor_extract_lww ts s k v dt hs hlast

/-- Closed instance of C4: with "A" then "B" written under the same
key, the record keeps "B". -/
theorem c4_last_write_wins_witness :
    (isResource (Term.uriRef "http://e/s") = true ∧
      (litTriplesFor exGraphRepeat (Term.uriRef "http://e/s") "p").getLast? =
        some ("B", Option.none)) ∧
    alGet (nodeDocFor (extractPass exGraphRepeat) (Term.uriRef "http://e/s"))
      "p" = some (coerceLiteral "B" Option.none) :=
  ⟨⟨by decide, by decide⟩,
   c4_last_write_wins exGraphRepeat (Term.uriRef "http://e/s") "p" "B"
     Option.none (by decide) (by decide)⟩

/-- Claim C5: the derived local name — after the last `#` if present,
else after the last `/` if present, else the full URI — is used both
as the flattened property key and as each relation's
`predicate_label`; URI-reference node labels take the text after the
final `/`, blank nodes use their identifier; and the spec's probes
derive `name`, `1` and `type`. -/
theorem c5_localname_derivation :
    (∀ ts km d, d ∈ buildRelations ts km →
      ∃ p, alGet d "predicate" = some (PyValue.str p) ∧
        alGet d "predicate_label" = some (PyValue.str (predLocalname p))) ∧
    (∀ u, alGet (skeleton (Term.uriRef u)) "_label" =
      some (PyValue.str (lastSplitSeg '/' u))) ∧
    (∀ b, alGet (skeleton (Term.bnode b)) "_label" =
      some (PyValue.str b)) ∧
    (∀ (st : ExtractState) (s0 p0 : Term) (lv : String) (ldt : Option String),
      isResource s0 = true →
      alGet (nodeDocFor (processTriple st ⟨s0, p0, Term.literal lv ldt⟩) s0)
        (predLocalname (termStr p0)) = some (coerceLiteral lv ldt)) ∧
    predLocalname "http://xmlns.com/foaf/0.1/name" = "name" ∧
    lastSplitSeg '/' "http://example.org/person/1" = "1" ∧
    predLocalname "http://www.w3.org/1999/02/22-rdf-syntax-ns#type" =
      "type" := by
  refine ⟨?_, ?_, ?_, ?_, by decide, by decide, by decide⟩
  · intro ts km d hd
    obtain ⟨t, ht, ho, ks, ko, hks, hko, hdoc⟩ := mem_buildRelations ts km d hd
    subst hdoc
    refine ⟨termStr t.pred, ?_, ?_⟩ <;> simp [alGet]
  · intro u
    simp [skeleton, alGet]
  · intro b
    simp [skeleton, alGet, termStr]
  · intro st s0 p0 lv ldt hsr
    show alGet (docFor (updateData st.nodeData ⟨s0, p0, Term.literal lv ldt⟩)
      s0) (predLocalname (termStr p0)) = some (coerceLiteral lv ldt)
    rw [docFor_updateData]
    rw [if_pos ⟨hsr, rfl⟩]
    show alGet (alSet (docFor st.nodeData s0)
      (predLocalname (termStr (Triple.mk s0 p0 (Term.literal lv ldt)).pred))
      (coerceLiteral lv ldt)) (predLocalname (termStr p0)) = _
    rw [alGet_alSet]
    simp

/-- Closed instance of C5 on the spec's probe URIs. -/
theorem c5_localname_derivation_witness :
    predLocalname "http://xmlns.com/foaf/0.1/name" = "name" ∧
    lastSplitSeg '/' "http://example.org/person/1" = "1" :=
  ⟨c5_localname_derivation.2.2.2.2.1, c5_localname_derivation.2.2.2.2.2.1⟩

/-- Claim C6 counterexample: on `exGraphCollide` — one triple whose
predicate local name is `_uri` with an integer literal — the persisted
vertex document for the URIRef node carries the integer 7 in its URI
field, which is neither a string nor null, so the claimed document
shape does not hold for every triple set. -/
theorem c6_counterexample_uri_overwritten :
    (runTransform defaultIns exGraphCollide).sinkNodes.length = 1 ∧
    alGet ((runTransform defaultIns exGraphCollide).sinkNodes.headD [])
      "_uri" = some (PyValue.int 7) ∧
    isStringValue (PyValue.int 7) = false ∧
    isNoneValue (PyValue.int 7) = false ∧
    alGet ((runTransform defaultIns exGraphCollide).sinkNodes.headD [])
      "_rdftype" = some (PyValue.str "URIRef") := by
  refine ⟨by decide, by decide, rfl, rfl, by decide⟩

/-- Claim C6 as amended: provided no literal property key collides
with the reserved field names `_uri`/`_label`/`_rdftype` (the spec's
uri/label/resource_kind), every persisted vertex document has a string
URI for URIRef nodes and a null URI exactly for blank nodes, a string
label, the matching kind tag, and only coerced literal values under
the remaining keys; every persisted edge document has exactly the
from/to/predicate/predicate-label fields plus the fixed
"ObjectProperty" tag. -/
theorem c6_document_shapes (ts : List Triple)
    (hK : ∀ t ∈ ts, litKeyReserved t = false) :
    (∀ d, d ∈ (runTransform defaultIns ts).sinkNodes →
      ∃ n, n ∈ (extractPass ts).nodes ∧ d = nodeDocFor (extractPass ts) n ∧
        ((∃ u, n = Term.uriRef u ∧ alGet d "_uri" = some (PyValue.str u) ∧
            alGet d "_label" = some (PyValue.str (lastSplitSeg '/' u)) ∧
            alGet d "_rdftype" = some (PyValue.str "URIRef")) ∨
         (∃ b, n = Term.bnode b ∧ alGet d "_uri" = some PyValue.none ∧
            alGet d "_label" = some (PyValue.str b) ∧
            alGet d "_rdftype" = some (PyValue.str "BNode"))) ∧
        (∀ k v, k ∉ reservedKeys → alGet d k = some v →
          ∃ lv ldt, v = coerceLiteral lv ldt)) ∧
    (∀ d, d ∈ (runTransform defaultIns ts).sinkRels →
      ∃ f g p, d = [("_from", PyValue.str f), ("_to", PyValue.str g),
        ("predicate", PyValue.str p),
        ("predicate_label", PyValue.str (predLocalname p)),
        ("_rdftype", PyValue.str "ObjectProperty")]) := by
  obtain ⟨km, heq, hkeys⟩ := runTransform_default ts
  obtain ⟨hA, hB⟩ := extract_data_inv ts hK
  rw [heq]
  constructor
  · intro d hd
    obtain ⟨n, hn, hdoc⟩ := List.mem_map.mp hd
    refine ⟨n, hn, hdoc.symm, ?_, ?_⟩
    · have hres : isResource n = true := ((mem_extractNodes ts n).mp hn).1
      have hfield : ∀ k, k ∈ reservedKeys →
          alGet d k = alGet (skeleton n) k := by
        intro k hk
        rw [← hdoc]
        show alGet (docFor (extractPass ts).nodeData n) k = _
        unfold docFor
        cases hget : alGet (extractPass ts).nodeData n with
        | none => rfl
        | some dd =>
            simp only [Option.getD_some]
            exact hA n dd hget k hk
      cases n with
      | uriRef u =>
          refine Or.inl ⟨u, rfl, ?_, ?_, ?_⟩ <;>
            rw [hfield _ (by decide)] <;> simp [skeleton, alGet]
      | bnode b =>
          refine Or.inr ⟨b, rfl, ?_, ?_, ?_⟩ <;>
            rw [hfield _ (by decide)] <;> simp [skeleton, alGet, termStr]
      | literal lv ldt => simp [isResource] at hres
    · intro k v hk hv
      rw [← hdoc] at hv
      revert hv
      show alGet (docFor (extractPass ts).nodeData n) k = some v → _
      unfold docFor
      cases hget : alGet (extractPass ts).nodeData n with
      | none =>
          simp only [Option.getD_none]
          rw [alGet_skeleton_not_reserved n k hk]
          intro hv
          exact absurd hv (by simp)
      | some dd =>
          simp only [Option.getD_some]
          intro hv
          exact hB n dd hget k v hk hv
  · intro d hd
    obtain ⟨t, ht, ho, ks, ko, hks, hko, hdoc⟩ := mem_buildRelations ts km d hd
    exact ⟨String.append "Node/" ks, String.append "Node/" ko,
      termStr t.pred, hdoc⟩

/-- Closed instance of the amended C6 on the FOAF example graph. -/
theorem c6_document_shapes_witness :
    (∀ t ∈ exGraphFoaf, litKeyReserved t = false) ∧
    ((∀ d, d ∈ (runTransform defaultIns exGraphFoaf).sinkNodes →
      ∃ n, n ∈ (extractPass exGraphFoaf).nodes ∧
        d = nodeDocFor (extractPass exGraphFoaf) n ∧
        ((∃ u, n = Term.uriRef u ∧ alGet d "_uri" = some (PyValue.str u) ∧
            alGet d "_label" = some (PyValue.str (lastSplitSeg '/' u)) ∧
            alGet d "_rdftype" = some (PyValue.str "URIRef")) ∨
         (∃ b, n = Term.bnode b ∧ alGet d "_uri" = some PyValue.none ∧
            alGet d "_label" = some (PyValue.str b) ∧
            alGet d "_rdftype" = some (PyValue.str "BNode"))) ∧
        (∀ k v, k ∉ reservedKeys → alGet d k = some v →
          ∃ lv ldt, v = coerceLiteral lv ldt)) ∧
    (∀ d, d ∈ (runTransform defaultIns exGraphFoaf).sinkRels →
      ∃ f g p, d = [("_from", PyValue.str f), ("_to", PyValue.str g),
        ("predicate", PyValue.str p),
        ("predicate_label", PyValue.str (predLocalname p)),
        ("_rdftype", PyValue.str "ObjectProperty")])) :=
  ⟨by decide, c6_document_shapes exGraphFoaf (by decide)⟩

/-- Claim C7: a Resource occurring only in object position still gets
a Node record, and its document is exactly the three-field skeleton
(URI or null, derived label, kind tag) with no literal properties. -/
theorem c7_object_only_skeleton (ts : List Triple) (r : Term)
    (hr : isResource r = true)
    (hobj : ∃ t, t ∈ ts ∧ t.obj = r)
    (hnsubj : ∀ t ∈ ts, t.subj ≠ r) :
    r ∈ (extractPass ts).nodes ∧
    nodeDocFor (extractPass ts) r = skeleton r ∧
    (skeleton r).map Prod.fst = reservedKeys := by
  refine ⟨?_, ?_, rfl⟩
  · obtain ⟨t, ht, hto⟩ := hobj
    exact (mem_extractNodes ts r).mpr ⟨hr, t, ht, Or.inr hto⟩
  · have hnone : alGet (extractPass ts).nodeData r = Option.none :=
      alGet_foldl_none ts r ⟨[], []⟩ rfl hnsubj
    show docFor (extractPass ts).nodeData r = skeleton r
    unfold docFor
    rw [hnone]
    rfl

/-- Closed instance of C7: the object-only node `http://e/b` gets the
bare skeleton document. -/
theorem c7_object_only_skeleton_witness :
    (isResource (Term.uriRef "http://e/b") = true ∧
      (∃ t, t ∈ exGraphEdge ∧ t.obj = Term.uriRef "http://e/b") ∧
      (∀ t ∈ exGraphEdge, t.subj ≠ Term.uriRef "http://e/b")) ∧
    (Term.uriRef "http://e/b" ∈ (extractPass exGraphEdge).nodes ∧
      nodeDocFor (extractPass exGraphEdge) (Term.uriRef "http://e/b") =
        skeleton (Term.uriRef "http://e/b") ∧
      (skeleton (Term.uriRef "http://e/b")).map Prod.fst = reservedKeys) :=
  ⟨⟨by decide, by decide, by decide⟩,
   c7_object_only_skeleton exGraphEdge (Term.uriRef "http://e/b")
     (by decide) (by decide) (by decide)⟩

/-- Claim C8: if the `i`-th node insert raises (after `i` successful
inserts), the whole transformation run reports failure, persists no
relation, and keeps exactly the `i` already-inserted node documents —
no rollback, no partial-success mode. -/
theorem c8_insert_failure_aborts (ins : Nat → Option String)
    (ts : List Triple) (i : Nat)
    (hi : i < (extractPass ts).nodes.length)
    (hfail : ins i = Option.none)
    (hok : ∀ j, j < i → (ins j).isSome = true) :
    (runTransform ins ts).success = false ∧
    (runTransform ins ts).sinkRels = [] ∧
    (runTransform ins ts).sinkNodes =
      ((extractPass ts).nodes.take i).map (nodeDocFor (extractPass ts)) := by
  have herr := insertLoop_fails ins (extractPass ts) (extractPass ts).nodes
    i 0 [] [] hi (by simpa using hfail) (fun j hj => by simpa using hok j hj)
  rw [runTransform]
  rw [herr]
  simp

/-- Closed instance of C8: a sink that raises on the first insert
leaves a failed run with no node and no relation documents. -/
theorem c8_insert_failure_aborts_witness :
    (0 < (extractPass exGraphEdge).nodes.length ∧
      exInsFail 0 = Option.none ∧
      (∀ j, j < 0 → (exInsFail j).isSome = true)) ∧
    ((runTransform exInsFail exGraphEdge).success = false ∧
      (runTransform exInsFail exGraphEdge).sinkRels = [] ∧
      (runTransform exInsFail exGraphEdge).sinkNodes =
        ((extractPass exGraphEdge).nodes.take 0).map
          (nodeDocFor (extractPass exGraphEdge))) :=
  ⟨⟨by decide, rfl, fun j hj => absurd hj (Nat.not_lt_zero j)⟩,
   c8_insert_failure_aborts exInsFail exGraphEdge 0 (by decide) rfl
     (fun j hj => absurd hj (Nat.not_lt_zero j))⟩

/-- Claim C9: a literal triple whose predicate local name is one of
the reserved skeleton fields `_uri`/`_label`/`_rdftype` overwrites
that field in the subject's Node record: the field exists in the
skeleton and afterwards holds the coerced literal value. -/
theorem c9_reserved_field_overwritten (ts : List Triple) (s : Term)
    (k : String) (v : String) (dt : Option String)
    (hs : isResource s = true)
    (hres : k ∈ reservedKeys)
    (hlast : (litTriplesFor ts s k).getLast? = some (v, dt)) :
    (alGet (skeleton s) k).isSome = true ∧
    alGet (nodeDocFor (extractPass ts) s) k = some (coerceLiteral v dt) := by
  constructor
  · simp only [reservedKeys, List.mem_cons, List.not_mem_nil,
      or_false] at hres
    rcases hres with rfl | rfl | rfl <;> cases s <;> simp [skeleton, alGet]
  · exact docFor_extract_lww ts s k v dt hs hlast

/-- Closed instance of C9: the integer literal 42 written under the
derived key `_rdftype` replaces the kind tag of the node document. -/
theorem c9_reserved_field_overwritten_witness :
    (isResource (Term.uriRef "http://e/s") = true ∧
      "_rdftype" ∈ reservedKeys ∧
      (litTriplesFor exGraphRes (Term.uriRef "http://e/s")
        "_rdftype").getLast? =
        some ("42", some "http://www.w3.org/2001/XMLSchema#integer")) ∧
    ((alGet (skeleton (Term.uriRef "http://e/s")) "_rdftype").isSome = true ∧
      alGet (nodeDocFor (extractPass exGraphRes) (Term.uriRef "http://e/s"))
        "_rdftype" =
        some (coerceLiteral "42"
          (some "http://www.w3.org/2001/XMLSchema#integer"))) :=
  ⟨⟨by decide, by decide, by decide⟩,
   c9_reserved_field_overwritten exGraphRes (Term.uriRef "http://e/s")
     "_rdftype" "42" (some "http://www.w3.org/2001/XMLSchema#integer")
     (by decide) (by decide) (by decide)⟩

/-- Claim C10 counterexample: the pipeline step method
`load_foaf_data` does not return a boolean — on failure it returns
Python `None`, which is neither `False` nor `True` — so "every
pipeline step method returns a boolean" is false as stated. -/
theorem c10_counterexample_load_returns_none :
    load_foaf_data Option.none = PyRet.noneVal ∧
    PyRet.noneVal ≠ PyRet.bool false ∧
    PyRet.noneVal ≠ PyRet.bool true := by
  decide

/-- Claim C10 as amended: the boolean-returning step methods signal
failure through `False` and `load_foaf_data` through `None`;
`create_lpgt_database` returns `True` exactly when all seven steps
succeed and runs every step up to and including the first failing
one, none after it. -/
theorem c10_pipeline_short_circuit :
    (∀ r : StepOutcomes,
      (create_lpgt_database r).1 =
        (r.connectOk && r.loadOk && r.recreateOk && r.collectionsOk &&
          r.transformOk && r.graphDefOk && r.verifyOk) ∧
      (create_lpgt_database r).2 = pipelineTrace r) ∧
    (∀ g, load_foaf_data (some g) = PyRet.graph g) ∧
    load_foaf_data Option.none = PyRet.noneVal := by
  refine ⟨?_, fun g => rfl, rfl⟩
  intro r
  obtain ⟨c, l, re, co, tr, gd, ve⟩ := r
  cases c <;> cases l <;> cases re <;> cases co <;> cases tr <;>
    cases gd <;> cases ve <;> exact ⟨rfl, rfl⟩
